import Mathlib

/-
  Verification development for the `autodm` repository.

  The only algorithmic component is the biased random path walker in
  src/nbs/04_gridworld_locations.ipynb (the second, final `PathWalker`
  class cell, which overrides the earlier draft cell), together with the
  helper `random_edge_points` and the module-level `distance` wrapper
  around `scipy.spatial.distance.minkowski`.

  Modelling decisions (each one justified by a bridge lemma below where it
  matters):
  * Points are integer pairs; grids are lists of rows of integers
    (row index first, as in a numpy 2-d array).
  * The hidden global random generators (`np.random`, `random`) are
    modelled as an explicit oracle `RandomSource`: `bern n` is the uniform
    draw in [0,1) consumed by the step-`n` Bernoulli trial
    (`np.random.binomial(1, p)` returns 1 iff the draw is < p), and
    `pick n` is the index draw consumed by the step-`n` uniform choice
    (`np.random.choice(k)` / `random.choice`, modelled as `pick n % k`).
  * The Minkowski exponent `p` is modelled as a natural number (scipy
    rejects p < 1; the notebook uses the default p = 2).  All distance
    COMPARISONS made by the code are performed here on the p-th power
    `distPow` of the real Minkowski distance, which is a natural number;
    lemmas `minkowskiDist_le_one_iff` and `distPow_lt_iff` prove that for
    1 <= p these comparisons agree with comparisons of the real distances
    computed by the source.
  * The unbounded `while` loop of `walk` is given a fuel parameter; the
    result is `Except`: `.error .noFuel` when the fuel runs out (the
    Python loop is still running at that point), `.error .deadEnd` when
    the Python code would crash selecting from an empty neighbour list.
  * Rational division in Lean is total with x / 0 = 0; the only division
    in the source, `(target_num_steps - current_num_steps) /
    target_num_steps`, is shown (claim C10) never to be executed with a
    zero denominator, so this totalisation is unobservable.
-/

abbrev Point := ℤ × ℤ

abbrev Grid := List (List ℤ)

/-- Oracle model of the random sources consumed by the walker: `bern n` is
the uniform [0,1) draw of the step-`n` Bernoulli trial, `pick n` the index
draw of the step-`n` uniform list choice. -/
structure RandomSource where
  bern : ℕ → ℚ
  pick : ℕ → ℕ

/-- The p-th power of the Minkowski distance between two integer points:
|x1-x2|^p + |y1-y2|^p.  The source computes the real distance
`minkowski(p1, p2, p) = (|dx|^p + |dy|^p)^(1/p)`; every comparison it
makes between distances is equivalent to the same comparison between
these powers (see `distPow_lt_iff`, `minkowskiDist_le_one_iff`). -/
def distPow (a b : Point) (p : ℕ) : ℕ :=
  (a.1 - b.1).natAbs ^ p + (a.2 - b.2).natAbs ^ p

/-- The real Minkowski distance `(|dx|^p + |dy|^p)^(1/p)` computed by
`scipy.spatial.distance.minkowski` in the source's `distance` helper. -/
noncomputable def minkowskiDist (a b : Point) (p : ℕ) : ℝ :=
  (|(a.1 : ℝ) - (b.1 : ℝ)| ^ p + |(a.2 : ℝ) - (b.2 : ℝ)| ^ p) ^ ((1 : ℝ) / (p : ℝ))

/-- The bias probability computed in `PathWalker.walk`:
`max(0, min(1, (target_num_steps - current_num_steps) / target_num_steps))`. -/
def prob_should_decrease (t cns : ℕ) : ℚ :=
  max 0 (min 1 (((t : ℚ) - (cns : ℚ)) / (t : ℚ)))

/-- Two grid cells are 4-connected when they differ by exactly one unit in
exactly one axis. -/
def fourConnected (a b : Point) : Prop :=
  (a.1 = b.1 ∧ (a.2 - b.2).natAbs = 1) ∨ ((a.1 - b.1).natAbs = 1 ∧ a.2 = b.2)

instance (a b : Point) : Decidable (fourConnected a b) := by
  unfold fourConnected; infer_instance

/-- A point lies within the `[0, width) x [0, height)` bounds of a grid. -/
def inB (width height : ℕ) (pt : Point) : Prop :=
  0 ≤ pt.1 ∧ pt.1 < (width : ℤ) ∧ 0 ≤ pt.2 ∧ pt.2 < (height : ℤ)

instance (width height : ℕ) (pt : Point) : Decidable (inB width height pt) := by
  unfold inB; infer_instance

/-- `PathWalker._adjacent_cells`: the neighbours of `(x, y)`, enumerated
left, right, down, up, each conditionally included exactly as in the
source (`x > 0`, `x < width-1`, `y > 0`, `y < height-1`). -/
def adjacentCellsC (width height : ℕ) (pos : Point) : List Point :=
  (if 0 < pos.1 then [(pos.1 - 1, pos.2)] else []) ++
    ((if pos.1 < (width : ℤ) - 1 then [(pos.1 + 1, pos.2)] else []) ++
      ((if 0 < pos.2 then [(pos.1, pos.2 - 1)] else []) ++
        (if pos.2 < (height : ℤ) - 1 then [(pos.1, pos.2 + 1)] else [])))

/-- First-occurrence argmin, as computed by `np.argmin` over the list of
neighbour distances: on ties the earliest element wins. `none` only on the
empty list (where `np.argmin` raises). -/
def argminBy (f : Point → ℕ) : List Point → Option Point
  | [] => none
  | x :: xs => some (xs.foldl (fun best c => if f c < f best then c else best) x)

/-- `PathWalker._decrease_distance`: the neighbour with (first-found)
minimal distance to the end point. -/
def decreaseDistanceC (width height : ℕ) (p2 : Point) (p : ℕ) (pos : Point) : Option Point :=
  argminBy (fun c => distPow c p2 p) (adjacentCellsC width height pos)

/-- `PathWalker._increase_distance`: a uniformly chosen neighbour whose
distance to the end point strictly exceeds the current one; if none
exists, a uniformly chosen neighbour (`random.choice` fallback).  `none`
only when the neighbour list itself is empty (where the source raises). -/
def increaseDistanceC (width height : ℕ) (p2 : Point) (p : ℕ) (pos : Point) (r : ℕ) :
    Option Point :=
  let adj := adjacentCellsC width height pos
  let avail := adj.filter (fun c => decide (distPow pos p2 p < distPow c p2 p))
  match avail with
  | [] => adj[r % adj.length]?
  | a :: rest => (a :: rest)[r % (a :: rest).length]?

/-- One iteration of the loop body of `walk`: Bernoulli trial with the
bias probability, then decrease or increase. -/
def stepChoice (width height : ℕ) (p2 : Point) (p t : ℕ) (rs : RandomSource)
    (cns : ℕ) (pos : Point) : Option Point :=
  if rs.bern cns < prob_should_decrease t cns then
    decreaseDistanceC width height p2 p pos
  else
    increaseDistanceC width height p2 p pos (rs.pick cns)

inductive WalkErr where
  | noFuel : WalkErr
  | deadEnd : WalkErr
deriving DecidableEq

/-- The `while (distance := self._distance(x, y)) > 1` loop of `walk`,
with explicit fuel.  The loop condition `distance > 1` is evaluated as
`distPow > 1`, equivalent for p >= 1 (`minkowskiDist_le_one_iff`). -/
def walkLoopC (width height : ℕ) (p2 : Point) (p t : ℕ) (rs : RandomSource) :
    ℕ → Point → ℕ → List Point → Except WalkErr (List Point)
  | 0, pos, _, acc =>
    if 1 < distPow pos p2 p then .error .noFuel else .ok acc
  | fuel + 1, pos, cns, acc =>
    if 1 < distPow pos p2 p then
      match stepChoice width height p2 p t rs cns pos with
      | none => .error .deadEnd
      | some nxt => walkLoopC width height p2 p t rs fuel nxt (cns + 1) (acc ++ [nxt])
    else .ok acc

/-- `budgetReached S p c n` says `n` steps of pace `c` cover the start-end
distance whose p-th power is `S`: `(n*c)^p >= S`, i.e. `n >= S^(1/p)/c`. -/
def budgetReached (S p : ℕ) (c : ℚ) (n : ℕ) : Prop :=
  (S : ℚ) ≤ ((n : ℚ) * c) ^ p

instance (S p : ℕ) (c : ℚ) (n : ℕ) : Decidable (budgetReached S p c n) := by
  unfold budgetReached; infer_instance

theorem budgetReached_exists {S p : ℕ} {c : ℚ} (hc : 0 < c) (hp : 1 ≤ p) :
    ∃ n, budgetReached S p c n := by
  refine ⟨(S + 1) * c.den, ?_⟩
  unfold budgetReached
  have hden : ((c.den : ℚ)) * c = (c.num : ℚ) := by
    rw [mul_comm]; exact_mod_cast Rat.mul_den_eq_num c
  have hnum : (1 : ℚ) ≤ (c.num : ℚ) := by
    have : 0 < c.num := Rat.num_pos.mpr hc
    exact_mod_cast this
  have hbase : ((S : ℚ) + 1) ≤ (((S + 1) * c.den : ℕ) : ℚ) * c := by
    push_cast
    rw [mul_assoc, hden]
    nlinarith [Nat.cast_nonneg (α := ℚ) S]
  have hone : (1 : ℚ) ≤ (((S + 1) * c.den : ℕ) : ℚ) * c := by
    nlinarith [Nat.cast_nonneg (α := ℚ) S]
  calc (S : ℚ) ≤ (((S + 1) * c.den : ℕ) : ℚ) * c := by linarith
    _ = ((((S + 1) * c.den : ℕ) : ℚ) * c) ^ 1 := (pow_one _).symm
    _ ≤ ((((S + 1) * c.den : ℕ) : ℚ) * c) ^ p := by
        exact pow_le_pow_right₀ hone hp

/-- `target_num_steps = np.ceil(distance(p1, p2, p) / target_distance_per_step)`,
computed as the least `n` with `(n*c)^p >= distPow` (equivalent to
`n >= distance/c`, see `targetStepsC_eq_ceil`).  Outside the domain the
source accepts (`c > 0` and `p >= 1`; elsewhere scipy/numpy error out or
produce NaN) the value is irrelevant and set to 0. -/
def targetStepsC (S p : ℕ) (c : ℚ) : ℕ :=
  if h : 0 < c ∧ 1 ≤ p then Nat.find (@budgetReached_exists S p c h.1 h.2) else 0

/-- The final `PathWalker` class of the notebook.  `width`/`height` are
stored as fields (the source derives them from `grid.shape`); `path` is
the mutable in-progress path attribute. -/
structure PathWalker where
  grid : Grid
  width : ℕ
  height : ℕ
  p1 : Point
  p2 : Point
  p : ℕ
  target_distance_per_step : ℚ
  path : List Point

def PathWalker.adjacent_cells (w : PathWalker) (pos : Point) : List Point :=
  adjacentCellsC w.width w.height pos

def PathWalker.decrease_distance (w : PathWalker) (pos : Point) : Option Point :=
  decreaseDistanceC w.width w.height w.p2 w.p pos

def PathWalker.increase_distance (w : PathWalker) (pos : Point) (r : ℕ) : Option Point :=
  increaseDistanceC w.width w.height w.p2 w.p pos r

def PathWalker.targetSteps (w : PathWalker) : ℕ :=
  targetStepsC (distPow w.p1 w.p2 w.p) w.p w.target_distance_per_step

/-- `PathWalker.walk`: reset the path to `[p1]`, then run the biased walk
loop.  Only the endpoint/geometry fields are read; `grid` and the stale
`path` attribute are not consulted. -/
def PathWalker.walk (w : PathWalker) (rs : RandomSource) (fuel : ℕ) :
    Except WalkErr (List Point) :=
  walkLoopC w.width w.height w.p2 w.p w.targetSteps rs fuel w.p1 0 [w.p1]

/-- `self.grid[x, y] = 1`, modelled on list-of-rows grids: row `x`,
column `y` (the source indexes the numpy array with `[x, y]`). -/
def setCell (g : Grid) (r c : ℕ) (v : ℤ) : Grid :=
  g.set r ((g.getD r []).set c v)

def getCell (g : Grid) (r c : ℕ) : ℤ :=
  (g.getD r []).getD c 0

/-- `PathWalker.add_to_grid`: `for x, y in path: self.grid[x, y] = 1`.
Note the constant 1: the `fill_value` parameter of `walk` is never used. -/
def addPathToGrid (g : Grid) (path : List Point) : Grid :=
  path.foldl (fun acc pt => setCell acc pt.1.toNat pt.2.toNat 1) g

def PathWalker.add_to_grid (w : PathWalker) (path : List Point) : Grid :=
  addPathToGrid w.grid path

/-- `random_edge_points` candidate generation: one point per edge, in
source order left, bottom, right, top.  `np.random.randint(0, n)` draws
uniformly from `[0, n)`; the draw is modelled as `r % n`, so the varying
coordinate of each edge point ranges over `[0, edge_length - 2]` — the
source passes `height-1` (resp. `width-1`) as the exclusive upper bound. -/
def edgeCandidates (width height : ℕ) (r : Fin 4 → ℕ) : Fin 4 → Point
  | 0 => ((0 : ℤ), (r 0 % (height - 1) : ℕ))
  | 1 => (((r 1 % (width - 1) : ℕ) : ℤ), 0)
  | 2 => ((width : ℤ) - 1, ((r 2 % (height - 1) : ℕ) : ℤ))
  | 3 => (((r 3 % (width - 1) : ℕ) : ℤ), (height : ℤ) - 1)

/-- `random_edge_points(width, height)`: build the four edge candidates,
`shuffle` them (modelled by an arbitrary permutation `σ` drawn from the
random source) and return the first two. -/
def random_edge_points (width height : ℕ) (r : Fin 4 → ℕ) (σ : Equiv.Perm (Fin 4)) :
    List Point :=
  (List.ofFn (fun i => edgeCandidates width height r (σ i))).take 2

inductive InitErr where
  | badRandintRange : InitErr
deriving DecidableEq

/-- `PathWalker.__init__`: stores the grid and its `shape`-derived
dimensions, uses the given endpoints when both are present and otherwise
samples both from `random_edge_points`; performs no validation of the
configuration.  The only failure is `np.random.randint(0, n)` with
`n <= 0` (raised inside edge sampling when the grid is narrower or
shorter than 2 and an endpoint was omitted). -/
def pathWalkerInit (grid : Grid) (p1o p2o : Option Point) (p : ℕ)
    (target_distance_per_step : ℚ) (r : Fin 4 → ℕ) (σ : Equiv.Perm (Fin 4)) :
    Except InitErr PathWalker :=
  let width := (grid.headD []).length
  let height := grid.length
  match p1o, p2o with
  | some q1, some q2 =>
    .ok ⟨grid, width, height, q1, q2, p, target_distance_per_step, []⟩
  | _, _ =>
    if 2 ≤ width ∧ 2 ≤ height then
      let pts := random_edge_points width height r σ
      .ok ⟨grid, width, height, pts.getD 0 (0, 0), pts.getD 1 (0, 0), p,
        target_distance_per_step, []⟩
    else .error .badRandintRange

/-- One invocation of `walk` as a state transition: the walker's `path`
attribute is replaced by the returned path (reset on failure). -/
def runWalk (w : PathWalker) (rs : RandomSource) (fuel : ℕ) :
    PathWalker × Except WalkErr (List Point) :=
  match w.walk rs fuel with
  | .ok ps => ({ w with path := ps }, .ok ps)
  | .error e => ({ w with path := [] }, .error e)

/- ------------------------------------------------------------------ -/
/- Membership and geometry lemmas about the neighbour enumeration.     -/
/- ------------------------------------------------------------------ -/

theorem mem_adjacentCellsC {width height : ℕ} {pos c : Point}
    (h : c ∈ adjacentCellsC width height pos) :
    (c = (pos.1 - 1, pos.2) ∧ 0 < pos.1) ∨
    (c = (pos.1 + 1, pos.2) ∧ pos.1 < (width : ℤ) - 1) ∨
    (c = (pos.1, pos.2 - 1) ∧ 0 < pos.2) ∨
    (c = (pos.1, pos.2 + 1) ∧ pos.2 < (height : ℤ) - 1) := by
  unfold adjacentCellsC at h
  simp only [List.mem_append] at h
  rcases h with h | h | h | h <;>
    [skip; skip; skip; skip] <;>
    · split_ifs at h with hc <;> simp_all

theorem adjacent_fourConnected {width height : ℕ} {pos c : Point}
    (h : c ∈ adjacentCellsC width height pos) : fourConnected pos c := by
  rcases mem_adjacentCellsC h with ⟨rfl, _⟩ | ⟨rfl, _⟩ | ⟨rfl, _⟩ | ⟨rfl, _⟩ <;>
    simp [fourConnected]

theorem adjacent_inB {width height : ℕ} {pos c : Point}
    (h : c ∈ adjacentCellsC width height pos) (hpos : inB width height pos) :
    inB width height c := by
  obtain ⟨h1, h2, h3, h4⟩ := hpos
  rcases mem_adjacentCellsC h with ⟨rfl, h5⟩ | ⟨rfl, h5⟩ | ⟨rfl, h5⟩ | ⟨rfl, h5⟩ <;>
    exact ⟨by omega, by omega, by omega, by omega⟩

theorem argminBy_mem {f : Point → ℕ} {l : List Point} {x : Point}
    (h : argminBy f l = some x) : x ∈ l := by
  match l with
  | [] => simp [argminBy] at h
  | a :: as =>
    simp only [argminBy, Option.some.injEq] at h
    subst h
    suffices H : ∀ (ys : List Point) (b : Point),
        (ys.foldl (fun best c => if f c < f best then c else best) b) = b ∨
        (ys.foldl (fun best c => if f c < f best then c else best) b) ∈ ys by
      rcases H as a with h' | h'
      · rw [h']; exact List.mem_cons_self _ _
      · exact List.mem_cons_of_mem _ h'
    intro ys
    induction ys with
    | nil => intro b; left; rfl
    | cons y ys ih =>
      intro b
      simp only [List.foldl_cons]
      rcases ih (if f y < f b then y else b) with h' | h'
      · rw [h']
        split
        · right; exact List.mem_cons_self _ _
        · left; rfl
      · right; exact List.mem_cons_of_mem _ h'

theorem increaseDistanceC_mem {width height : ℕ} {p2 : Point} {p : ℕ} {pos c : Point}
    {r : ℕ} (h : increaseDistanceC width height p2 p pos r = some c) :
    c ∈ adjacentCellsC width height pos := by
  unfold increaseDistanceC at h
  simp only at h
  split at h
  · exact List.getElem?_mem h
  · next a rest heq =>
    have hmem : c ∈ a :: rest := List.getElem?_mem h
    have : c ∈ (adjacentCellsC width height pos).filter
        (fun c => decide (distPow pos p2 p < distPow c p2 p)) := by
      rw [heq]; exact hmem
    exact List.mem_of_mem_filter this

theorem stepChoice_mem {width height : ℕ} {p2 : Point} {p t : ℕ} {rs : RandomSource}
    {cns : ℕ} {pos c : Point}
    (h : stepChoice width height p2 p t rs cns pos = some c) :
    c ∈ adjacentCellsC width height pos := by
  unfold stepChoice at h
  split at h
  · exact argminBy_mem h
  · exact increaseDistanceC_mem h

/- ------------------------------------------------------------------ -/
/- Master invariant of the walk loop.                                  -/
/- ------------------------------------------------------------------ -/

/-- Invariant of `walkLoopC`: whenever the loop returns a path, the path
extends the accumulator (so its head is the accumulator's head), its last
point is within the stopping distance (`distPow <= 1`), and — provided the
accumulator was 4-connected and in bounds and ended at the current
position — so is the whole returned path. -/
theorem walkLoopC_ok_spec (width height : ℕ) (p2 : Point) (p t : ℕ) (rs : RandomSource) :
    ∀ (fuel : ℕ) (pos : Point) (cns : ℕ) (acc path : List Point),
      walkLoopC width height p2 p t rs fuel pos cns acc = .ok path →
      acc ≠ [] → acc.getLast? = some pos →
      (path.head? = acc.head? ∧
        ∃ lst, path.getLast? = some lst ∧ distPow lst p2 p ≤ 1) ∧
      ((∀ q ∈ acc, inB width height q) → List.Chain' fourConnected acc →
        (∀ q ∈ path, inB width height q) ∧ List.Chain' fourConnected path) := by
  intro fuel
  induction fuel with
  | zero =>
    intro pos cns acc path hrun hne hlast
    rw [walkLoopC] at hrun
    split at hrun
    · exact absurd hrun (by simp)
    · next hnot =>
      obtain rfl : acc = path := by simpa using hrun
      refine ⟨⟨rfl, pos, hlast, le_of_not_lt hnot⟩, fun hin hchain => ⟨hin, hchain⟩⟩
  | succ f ih =>
    intro pos cns acc path hrun hne hlast
    rw [walkLoopC] at hrun
    split at hrun
    · next hgt =>
      cases hstep : stepChoice width height p2 p t rs cns pos with
      | none => rw [hstep] at hrun; exact absurd hrun (by simp)
      | some nxt =>
        rw [hstep] at hrun
        have hmem := stepChoice_mem hstep
        obtain ⟨⟨hhead, hlastd⟩, hbnd⟩ :=
          ih nxt (cns + 1) (acc ++ [nxt]) path hrun (by simp) (List.getLast?_concat acc)
        refine ⟨⟨?_, hlastd⟩, ?_⟩
        · rw [hhead]
          cases acc with
          | nil => exact absurd rfl hne
          | cons a as => simp
        · intro hin hchain
          have hposB : inB width height pos := hin pos (List.mem_of_mem_getLast? hlast)
          have hnxtB : inB width height nxt := adjacent_inB hmem hposB
          refine hbnd ?_ ?_
          · intro q hq
            rcases List.mem_append.mp hq with hq | hq
            · exact hin q hq
            · simp at hq; subst hq; exact hnxtB
          · refine List.chain'_append.mpr ⟨hchain, List.chain'_singleton _, ?_⟩
            intro x hx y hy
            simp at hy; subst hy
            rw [hlast] at hx
            obtain rfl : pos = x := by simpa using hx
            exact adjacent_fourConnected hmem
    · next hnot =>
      obtain rfl : acc = path := by simpa using hrun
      refine ⟨⟨rfl, pos, hlast, le_of_not_lt hnot⟩, fun hin hchain => ⟨hin, hchain⟩⟩

/- ------------------------------------------------------------------ -/
/- Bridges between the integer comparisons used in the embedding and   -/
/- the real Minkowski distances computed by the source.                -/
/- ------------------------------------------------------------------ -/

theorem minkowskiDist_eq_rpow (a b : Point) (p : ℕ) :
    minkowskiDist a b p = ((distPow a b p : ℝ)) ^ ((1 : ℝ) / (p : ℝ)) := by
  unfold minkowskiDist distPow
  have h1 : |(a.1 : ℝ) - (b.1 : ℝ)| = (((a.1 - b.1).natAbs : ℕ) : ℝ) := by
    rw [Int.cast_natAbs]; push_cast; ring_nf
  have h2 : |(a.2 : ℝ) - (b.2 : ℝ)| = (((a.2 - b.2).natAbs : ℕ) : ℝ) := by
    rw [Int.cast_natAbs]; push_cast; ring_nf
  rw [h1, h2]; push_cast; ring_nf

theorem rpow_pow_inv_natCast {x : ℝ} {p : ℕ} (hx : 0 ≤ x) (hp : 1 ≤ p) :
    (x ^ p) ^ ((1 : ℝ) / (p : ℝ)) = x := by
  have hp0 : (p : ℝ) ≠ 0 := Nat.cast_ne_zero.mpr (by omega)
  rw [← Real.rpow_natCast x p, ← Real.rpow_mul hx, mul_one_div, div_self hp0,
    Real.rpow_one]

theorem pow_rpow_inv_natCast {S : ℝ} {p : ℕ} (hS : 0 ≤ S) (hp : 1 ≤ p) :
    (S ^ ((1 : ℝ) / (p : ℝ))) ^ p = S := by
  have hp0 : (p : ℝ) ≠ 0 := Nat.cast_ne_zero.mpr (by omega)
  rw [← Real.rpow_natCast (S ^ ((1 : ℝ) / (p : ℝ))) p, ← Real.rpow_mul hS,
    one_div_mul_eq_div, div_self hp0, Real.rpow_one]

/-- The loop's stopping test `distance <= 1` on real Minkowski distances
agrees with `distPow <= 1` on their p-th powers. -/
theorem minkowskiDist_le_one_iff {a b : Point} {p : ℕ} (hp : 1 ≤ p) :
    minkowskiDist a b p ≤ 1 ↔ distPow a b p ≤ 1 := by
  rw [minkowskiDist_eq_rpow]
  have hz : (0 : ℝ) < (1 : ℝ) / (p : ℝ) := by
    apply div_pos one_pos
    exact_mod_cast Nat.lt_of_lt_of_le Nat.zero_lt_one hp
  constructor
  · intro h
    by_contra hgt
    push_neg at hgt
    have hS : (1 : ℝ) < (distPow a b p : ℝ) := by exact_mod_cast hgt
    have : (1 : ℝ) < ((distPow a b p : ℝ)) ^ ((1 : ℝ) / (p : ℝ)) := by
      calc (1 : ℝ) = 1 ^ ((1 : ℝ) / (p : ℝ)) := (Real.one_rpow _).symm
        _ < _ := Real.rpow_lt_rpow (by norm_num) hS hz
    linarith
  · intro h
    have hS : ((distPow a b p : ℝ)) ≤ 1 := by exact_mod_cast h
    calc ((distPow a b p : ℝ)) ^ ((1 : ℝ) / (p : ℝ))
        ≤ 1 ^ ((1 : ℝ) / (p : ℝ)) :=
          Real.rpow_le_rpow (by positivity) hS (le_of_lt hz)
      _ = 1 := Real.one_rpow _

/-- Strict comparisons between neighbour distances (used by `argmin` and
by the increase-distance filter) agree between the real Minkowski
distances of the source and the p-th powers used here. -/
theorem distPow_lt_iff {a b c : Point} {p : ℕ} (hp : 1 ≤ p) :
    distPow a c p < distPow b c p ↔ minkowskiDist a c p < minkowskiDist b c p := by
  rw [minkowskiDist_eq_rpow, minkowskiDist_eq_rpow]
  have hz : (0 : ℝ) < (1 : ℝ) / (p : ℝ) := by
    apply div_pos one_pos
    exact_mod_cast Nat.lt_of_lt_of_le Nat.zero_lt_one hp
  constructor
  · intro h
    exact Real.rpow_lt_rpow (by positivity) (by exact_mod_cast h) hz
  · intro h
    by_contra hle
    push_neg at hle
    have : ((distPow b c p : ℝ)) ≤ ((distPow a c p : ℝ)) := by exact_mod_cast hle
    have := Real.rpow_le_rpow (by positivity) this (le_of_lt hz)
    linarith

/-- `budgetReached` is exactly the statement `distance / pace <= n` over
the reals. -/
theorem budgetReached_iff_ceil {S p : ℕ} {c : ℚ} (hc : 0 < c) (hp : 1 ≤ p) (n : ℕ) :
    budgetReached S p c n ↔ ((S : ℝ) ^ ((1 : ℝ) / (p : ℝ))) / (c : ℝ) ≤ (n : ℝ) := by
  have hcR : (0 : ℝ) < (c : ℝ) := by exact_mod_cast hc
  have hx : (0 : ℝ) ≤ (n : ℝ) * (c : ℝ) := by positivity
  have hS : (0 : ℝ) ≤ (S : ℝ) := by positivity
  have key : budgetReached S p c n ↔ (S : ℝ) ≤ ((n : ℝ) * (c : ℝ)) ^ p := by
    unfold budgetReached
    constructor
    · intro h
      have := (Rat.cast_le (K := ℝ)).mpr h
      push_cast at this ⊢
      convert this using 2
    · intro h
      have h' : ((S : ℚ) : ℝ) ≤ ((((n : ℚ) * c) ^ p : ℚ) : ℝ) := by
        push_cast at h ⊢
        convert h using 2
      exact_mod_cast h'
  rw [key, div_le_iff₀ hcR]
  constructor
  · intro h
    calc (S : ℝ) ^ ((1 : ℝ) / (p : ℝ))
        ≤ (((n : ℝ) * (c : ℝ)) ^ p) ^ ((1 : ℝ) / (p : ℝ)) :=
          Real.rpow_le_rpow hS h (by positivity)
      _ = (n : ℝ) * (c : ℝ) := rpow_pow_inv_natCast hx hp
  · intro h
    calc (S : ℝ) = ((S : ℝ) ^ ((1 : ℝ) / (p : ℝ))) ^ p := (pow_rpow_inv_natCast hS hp).symm
      _ ≤ ((n : ℝ) * (c : ℝ)) ^ p := pow_le_pow_left₀ (by positivity) h p

/-- `targetStepsC` computes exactly
`np.ceil(distance(p1, p2, p) / target_distance_per_step)`. -/
theorem targetStepsC_eq_ceil {S p : ℕ} {c : ℚ} (hc : 0 < c) (hp : 1 ≤ p) :
    targetStepsC S p c = ⌈((S : ℝ) ^ ((1 : ℝ) / (p : ℝ))) / (c : ℝ)⌉₊ := by
  unfold targetStepsC
  rw [dif_pos ⟨hc, hp⟩]
  have hch : ∀ n, budgetReached S p c n ↔
      (⌈((S : ℝ) ^ ((1 : ℝ) / (p : ℝ))) / (c : ℝ)⌉₊ ≤ n) := by
    intro n
    rw [budgetReached_iff_ceil hc hp n, Nat.ceil_le]
  apply le_antisymm
  · exact Nat.find_min' _ ((hch _).mpr le_rfl)
  · exact (hch _).mp (Nat.find_spec _)

/-- The walker's `targetSteps` is the ceiling of the real Minkowski
start-to-end distance divided by the pace, as in the source. -/
theorem PathWalker.targetSteps_eq_ceil (w : PathWalker)
    (hc : 0 < w.target_distance_per_step) (hp : 1 ≤ w.p) :
    w.targetSteps = ⌈minkowskiDist w.p1 w.p2 w.p / ((w.target_distance_per_step : ℚ) : ℝ)⌉₊ := by
  rw [PathWalker.targetSteps, targetStepsC_eq_ceil hc hp, minkowskiDist_eq_rpow]

/- ------------------------------------------------------------------ -/
/- Grid-cell lemmas for `add_to_grid`.                                 -/
/- ------------------------------------------------------------------ -/

theorem setCell_length (g : Grid) (r c : ℕ) (v : ℤ) :
    (setCell g r c v).length = g.length := by
  simp [setCell]

theorem getD_set_self (l : List (List ℤ)) (i : ℕ) (row : List ℤ) (h : i < l.length) :
    (l.set i row).getD i [] = row := by
  rw [List.getD_eq_getElem?_getD, List.getElem?_set, if_pos rfl, if_pos h]; rfl

theorem getD_set_ne (l : List (List ℤ)) (i j : ℕ) (row : List ℤ) (h : i ≠ j) :
    (l.set i row).getD j [] = l.getD j [] := by
  rw [List.getD_eq_getElem?_getD, List.getElem?_set, if_neg h, List.getD_eq_getElem?_getD]

theorem setCell_rowLen (g : Grid) (r c i : ℕ) (v : ℤ) :
    ((setCell g r c v).getD i []).length = (g.getD i []).length := by
  unfold setCell
  by_cases hij : r = i
  · subst hij
    by_cases h : r < g.length
    · rw [getD_set_self _ _ _ h]; simp
    · rw [List.set_eq_of_length_le (by omega)]
  · rw [getD_set_ne _ _ _ _ hij]

/-- Effect of a single `grid[r, c] = v` assignment on a cell read: the
written value at `(r, c)` when in bounds, the old value elsewhere. -/
theorem getCell_setCell (g : Grid) (r c r' c' : ℕ) (v : ℤ) :
    getCell (setCell g r c v) r' c' =
      if r = r' ∧ c = c' ∧ r < g.length ∧ c < (g.getD r []).length then v
      else getCell g r' c' := by
  unfold getCell setCell
  by_cases hr : r = r'
  · subst hr
    by_cases hlen : r < g.length
    · rw [getD_set_self _ _ _ hlen]
      by_cases hc : c = c'
      · subst hc
        by_cases hcl : c < (g.getD r []).length
        · rw [if_pos ⟨rfl, rfl, hlen, hcl⟩]
          rw [List.getD_eq_getElem?_getD, List.getElem?_set, if_pos rfl, if_pos hcl]; rfl
        · rw [if_neg (by tauto)]
          rw [List.set_eq_of_length_le (by omega)]
      · rw [if_neg (by tauto)]
        rw [List.getD_eq_getElem?_getD, List.getElem?_set, if_neg hc]
        simp [List.getD_eq_getElem?_getD]
    · rw [List.set_eq_of_length_le (by omega), if_neg (by tauto)]
  · rw [getD_set_ne _ _ _ _ hr, if_neg (by tauto)]

theorem addPathToGrid_cons (g : Grid) (q : Point) (rest : List Point) :
    addPathToGrid g (q :: rest) = addPathToGrid (setCell g q.1.toNat q.2.toNat 1) rest :=
  rfl

/-- Every write of `add_to_grid` writes the constant 1, so cells already
holding 1 keep it. -/
theorem addPathToGrid_keeps_one (path : List Point) :
    ∀ (g : Grid) (r c : ℕ), getCell g r c = 1 →
      getCell (addPathToGrid g path) r c = 1 := by
  induction path with
  | nil => intro g r c h; exact h
  | cons q rest ih =>
    intro g r c h
    rw [addPathToGrid_cons]
    apply ih
    rw [getCell_setCell]
    split
    · rfl
    · exact h

theorem addPathToGrid_mem_one (path : List Point) :
    ∀ (g : Grid) (pt : Point), pt ∈ path → 0 ≤ pt.1 → 0 ≤ pt.2 →
      pt.1.toNat < g.length → pt.2.toNat < (g.getD pt.1.toNat []).length →
      getCell (addPathToGrid g path) pt.1.toNat pt.2.toNat = 1 := by
  induction path with
  | nil => intro g pt h; simp at h
  | cons q rest ih =>
    intro g pt hmem hx hy hr hc
    rw [addPathToGrid_cons]
    by_cases hmem' : pt ∈ rest
    · apply ih (setCell g q.1.toNat q.2.toNat 1) pt hmem' hx hy
      · rw [setCell_length]; exact hr
      · rw [setCell_rowLen]; exact hc
    · have hpt : pt = q := by
        rcases List.mem_cons.mp hmem with h | h
        · exact h
        · exact absurd h hmem'
      subst hpt
      apply addPathToGrid_keeps_one
      rw [getCell_setCell, if_pos ⟨rfl, rfl, hr, hc⟩]

/- ------------------------------------------------------------------ -/
/- Claim theorems.                                                     -/
/- ------------------------------------------------------------------ -/

/-- C1 (code_bug evidence): the bias probability actually implemented in
`walk`, `max(0, min(1, (target - steps)/target))`, is monotonically
NON-INCREASING in the number of steps taken: it equals 1 at the start of
the walk and 0 once the step budget is exceeded — the reverse of the
claimed (and, per the draft cell's comment, intended) policy of wandering
early and closing in once over budget. -/
theorem C1_bias_probability_is_reversed :
    prob_should_decrease 10 0 = 1 ∧ prob_should_decrease 10 5 = 1 / 2 ∧
    prob_should_decrease 10 10 = 0 ∧ prob_should_decrease 10 15 = 0 ∧
    ∀ t s1 s2 : ℕ, s1 ≤ s2 →
      prob_should_decrease t s2 ≤ prob_should_decrease t s1 := by
  refine ⟨by norm_num [prob_should_decrease], by norm_num [prob_should_decrease],
    by norm_num [prob_should_decrease], by norm_num [prob_should_decrease], ?_⟩
  intro t s1 s2 h
  unfold prob_should_decrease
  rcases Nat.eq_zero_or_pos t with rfl | ht
  · norm_num
  · have htQ : (0 : ℚ) < (t : ℚ) := by exact_mod_cast ht
    have hnum : ((t : ℚ) - (s2 : ℚ)) / (t : ℚ) ≤ ((t : ℚ) - (s1 : ℚ)) / (t : ℚ) := by
      have hsQ : (s1 : ℚ) ≤ (s2 : ℚ) := by exact_mod_cast h
      gcongr
    exact max_le_max le_rfl (min_le_min le_rfl hnum)

/-- C1 witness: the probability at step 7 is no larger than at step 3. -/
theorem C1_witness :
    prob_should_decrease 10 7 ≤ prob_should_decrease 10 3 :=
  C1_bias_probability_is_reversed.2.2.2.2 10 3 7 (by norm_num)

/-- C2 counterexample: painting the 3-point path `[(0,0),(1,0),(1,1)]`
onto a zero 2x2 grid yields `[[1,0],[1,1]]` — fill value 1 (the
`fill_value` argument of `walk` is never passed to `add_to_grid`) at
row = x, column = y — not the claimed `[[2,2],[0,2]]`. -/
theorem C2_counterexample :
    (PathWalker.add_to_grid
        ⟨[[0, 0], [0, 0]], 2, 2, (0, 0), (1, 1), 2, 6 / 10, []⟩
        [(0, 0), (1, 0), (1, 1)] = [[1, 0], [1, 1]]) ∧
    ([[1, 0], [1, 1]] : Grid) ≠ [[2, 2], [0, 2]] := by
  exact ⟨rfl, by decide⟩

/-- C2 (amended): `add_to_grid` sets `grid[x][y] = 1` (x as row index,
constant fill value 1) for every in-bounds point `(x, y)` of the path. -/
theorem C2_paint_writes_constant_one (w : PathWalker) (path : List Point) (pt : Point)
    (hmem : pt ∈ path) (hx : 0 ≤ pt.1) (hy : 0 ≤ pt.2)
    (hr : pt.1.toNat < w.grid.length)
    (hc : pt.2.toNat < (w.grid.getD pt.1.toNat []).length) :
    getCell (w.add_to_grid path) pt.1.toNat pt.2.toNat = 1 :=
  addPathToGrid_mem_one path w.grid pt hmem hx hy hr hc

/-- C2 witness: the cell (row 1, column 1) painted by the scenario path
holds 1. -/
theorem C2_witness :
    getCell (PathWalker.add_to_grid
        ⟨[[0, 0], [0, 0]], 2, 2, (0, 0), (1, 1), 2, 6 / 10, []⟩
        [(0, 0), (1, 0), (1, 1)]) 1 1 = 1 :=
  C2_paint_writes_constant_one
    ⟨[[0, 0], [0, 0]], 2, 2, (0, 0), (1, 1), 2, 6 / 10, []⟩
    [(0, 0), (1, 0), (1, 1)] (1, 1) (by decide) (by decide) (by decide)
    (by decide) (by decide)

/-- C5: when the start point equals the end point the loop condition is
false at once and `walk` returns the one-point path `[p1]`, for every
random source and every fuel bound — a success, not an error. -/
theorem C5_start_eq_end_single_point (w : PathWalker) (rs : RandomSource) (fuel : ℕ)
    (hp : 1 ≤ w.p) (heq : w.p1 = w.p2) :
    w.walk rs fuel = .ok [w.p1] := by
  have hd : distPow w.p1 w.p2 w.p = 0 := by
    rw [← heq]
    unfold distPow
    rw [sub_self, sub_self]
    simp [zero_pow (show w.p ≠ 0 by omega)]
  cases fuel <;> rw [PathWalker.walk, walkLoopC] <;> rw [hd] <;> norm_num

/-- C5 witness: the spec scenario `start == end == (5,5)` gives exactly
`[(5,5)]`. -/
theorem C5_witness :
    PathWalker.walk ⟨[], 10, 10, (5, 5), (5, 5), 2, 6 / 10, []⟩
      ⟨fun _ => 0, fun _ => 0⟩ 9 = .ok [(5, 5)] :=
  C5_start_eq_end_single_point ⟨[], 10, 10, (5, 5), (5, 5), 2, 6 / 10, []⟩
    ⟨fun _ => 0, fun _ => 0⟩ 9 (by norm_num) rfl

/-- C7 counterexample: constructing a walker on a 0x0 grid with
`distance_exponent` 0 (and even a zero pace) succeeds — `__init__`
performs no validation, so no configuration error is raised. -/
theorem C7_counterexample :
    pathWalkerInit [] (some (0, 0)) (some (0, 0)) 0 0 (fun _ => 0)
        (Equiv.refl (Fin 4)) =
      .ok ⟨[], 0, 0, (0, 0), (0, 0), 0, 0, []⟩ :=
  rfl

/-- C7 (amended): `__init__` validates nothing: with explicit endpoints,
construction succeeds for every grid (including empty ones), every
exponent and every pace; invalid values only surface later.  The only
construction-time failure is the `randint` error inside edge sampling
when an endpoint is omitted on a grid of width or height < 2. -/
theorem C7_init_never_validates (grid : Grid) (q1 q2 : Point) (p : ℕ)
    (tdps : ℚ) (r : Fin 4 → ℕ) (σ : Equiv.Perm (Fin 4)) :
    ∃ w : PathWalker, pathWalkerInit grid (some q1) (some q2) p tdps r σ = .ok w :=
  ⟨_, rfl⟩

/-- C10: the division `(target_num_steps - current_num_steps) /
target_num_steps` is never executed with a zero denominator: the loop
body runs only when the current distance exceeds 1, which forces
`target_num_steps >= 1`; and when `target_num_steps = 0` the walk
returns `[p1]` without entering the loop at all. -/
theorem C10_division_guarded (w : PathWalker) (rs : RandomSource) (fuel : ℕ)
    (hc : 0 < w.target_distance_per_step) (hp : 1 ≤ w.p) :
    (1 < distPow w.p1 w.p2 w.p → 1 ≤ w.targetSteps) ∧
    (w.targetSteps = 0 → w.walk rs fuel = .ok [w.p1]) := by
  constructor
  · intro hgt
    rw [PathWalker.targetSteps, targetStepsC, dif_pos ⟨hc, hp⟩]
    rw [Nat.one_le_iff_ne_zero, Ne, Nat.find_eq_zero]
    unfold budgetReached
    rw [Nat.cast_zero, zero_mul, zero_pow (show w.p ≠ 0 by omega)]
    push_neg
    exact_mod_cast Nat.lt_of_lt_of_le Nat.zero_lt_one (le_of_lt hgt)
  · intro h0
    rw [PathWalker.targetSteps, targetStepsC, dif_pos ⟨hc, hp⟩] at h0
    have hP := (Nat.find_eq_zero _).mp h0
    unfold budgetReached at hP
    rw [Nat.cast_zero, zero_mul, zero_pow (show w.p ≠ 0 by omega)] at hP
    have hS : distPow w.p1 w.p2 w.p = 0 := by exact_mod_cast le_antisymm hP (by positivity)
    cases fuel <;> rw [PathWalker.walk, walkLoopC] <;> rw [hS] <;> norm_num

/-- C10 witness: with coinciding endpoints the budget is 0 and the walk
still returns `[p1]` without any division. -/
theorem C10_witness :
    (1 < distPow (5, 5) (5, 5) 2 → 1 ≤ PathWalker.targetSteps
        ⟨[], 10, 10, (5, 5), (5, 5), 2, 6 / 10, []⟩) ∧
    (PathWalker.targetSteps ⟨[], 10, 10, (5, 5), (5, 5), 2, 6 / 10, []⟩ = 0 →
      PathWalker.walk ⟨[], 10, 10, (5, 5), (5, 5), 2, 6 / 10, []⟩
        ⟨fun _ => 0, fun _ => 0⟩ 7 = .ok [(5, 5)]) :=
  C10_division_guarded ⟨[], 10, 10, (5, 5), (5, 5), 2, 6 / 10, []⟩
    ⟨fun _ => 0, fun _ => 0⟩ 7 (by norm_num) (by norm_num)

/-- C3: every path returned by `walk` is a chain of 4-connected steps and,
when the start point is in bounds, stays within
`[0, width) x [0, height)`. -/
theorem C3_paths_adjacent_and_in_bounds (w : PathWalker) (rs : RandomSource)
    (fuel : ℕ) (path : List Point)
    (hstart : inB w.width w.height w.p1)
    (hres : w.walk rs fuel = .ok path) :
    List.Chain' fourConnected path ∧ ∀ pt ∈ path, inB w.width w.height pt := by
  rw [PathWalker.walk] at hres
  have h := walkLoopC_ok_spec w.width w.height w.p2 w.p w.targetSteps rs fuel w.p1 0
    [w.p1] path hres (by simp) (by simp)
  have hb := h.2 (by intro q hq; simp at hq; subst hq; exact hstart)
    (List.chain'_singleton _)
  exact ⟨hb.2, hb.1⟩

/-- C3 witness: a trivial in-bounds run on a 2x1 grid. -/
theorem C3_witness :
    List.Chain' fourConnected [((0 : ℤ), (0 : ℤ))] ∧
    ∀ pt ∈ [((0 : ℤ), (0 : ℤ))], inB 2 1 pt :=
  C3_paths_adjacent_and_in_bounds ⟨[], 2, 1, (0, 0), (1, 0), 2, 6 / 10, []⟩
    ⟨fun _ => 0, fun _ => 0⟩ 5 [(0, 0)] (by decide) rfl

/-- C4: every path returned by `walk` starts at the walker's `p1`, and the
real Minkowski distance (with the configured exponent) from its last point
to `p2` is at most 1 (the last point need not equal `p2`). -/
theorem C4_endpoint_conditions (w : PathWalker) (rs : RandomSource) (fuel : ℕ)
    (path : List Point) (hp : 1 ≤ w.p) (hres : w.walk rs fuel = .ok path) :
    path.head? = some w.p1 ∧
    ∃ lst, path.getLast? = some lst ∧ minkowskiDist lst w.p2 w.p ≤ 1 := by
  rw [PathWalker.walk] at hres
  have h := walkLoopC_ok_spec w.width w.height w.p2 w.p w.targetSteps rs fuel w.p1 0
    [w.p1] path hres (by simp) (by simp)
  obtain ⟨⟨hhead, lst, hlast, hle⟩, -⟩ := h
  exact ⟨by simpa using hhead, lst, hlast, (minkowskiDist_le_one_iff hp).mpr hle⟩

/-- C4 witness: a one-point run whose single point is within distance 1
of the end point. -/
theorem C4_witness :
    ([((0 : ℤ), (0 : ℤ))] : List Point).head? = some ((0 : ℤ), (0 : ℤ)) ∧
    ∃ lst, ([((0 : ℤ), (0 : ℤ))] : List Point).getLast? = some lst ∧
      minkowskiDist lst (1, 0) 2 ≤ 1 :=
  C4_endpoint_conditions ⟨[], 2, 1, (0, 0), (1, 0), 2, 6 / 10, []⟩
    ⟨fun _ => 0, fun _ => 0⟩ 3 [(0, 0)] (by norm_num) rfl

/-- C8: `walk` reads only the geometry parameters (grid dimensions,
endpoints, exponent, pace) and the random source: two walkers agreeing on
those produce identical paths regardless of their grids or stale `path`
attributes, and re-invoking `walk` on the post-run walker state replays
the identical result (the path attribute is reset at the start of each
walk). -/
theorem C8_deterministic_replay (w1 w2 : PathWalker) (rs : RandomSource) (fuel : ℕ)
    (hW : w1.width = w2.width) (hH : w1.height = w2.height)
    (h1 : w1.p1 = w2.p1) (h2 : w1.p2 = w2.p2) (hp : w1.p = w2.p)
    (ht : w1.target_distance_per_step = w2.target_distance_per_step) :
    w1.walk rs fuel = w2.walk rs fuel ∧
    (runWalk (runWalk w1 rs fuel).1 rs fuel).2 = (runWalk w1 rs fuel).2 := by
  have hsame : ∀ ps : List Point,
      PathWalker.walk { w1 with path := ps } rs fuel = w1.walk rs fuel := fun _ => rfl
  constructor
  · rw [PathWalker.walk, PathWalker.walk, PathWalker.targetSteps, PathWalker.targetSteps,
      hW, hH, h1, h2, hp, ht]
  · have hsnd : ∀ x : PathWalker, (runWalk x rs fuel).2 = x.walk rs fuel := by
      intro x
      cases hx : x.walk rs fuel with
      | ok ps => simp [runWalk, hx]
      | error e => simp [runWalk, hx]
    have hfst : ∃ ps, (runWalk w1 rs fuel).1 = { w1 with path := ps } := by
      cases hx : w1.walk rs fuel with
      | ok ps => exact ⟨ps, by simp [runWalk, hx]⟩
      | error e => exact ⟨[], by simp [runWalk, hx]⟩
    obtain ⟨ps, hps⟩ := hfst
    rw [hsnd, hsnd, hps, hsame]

/-- C8 witness: two walkers differing only in grid and stale path give
the same result, and a re-run replays it. -/
theorem C8_witness :
    (PathWalker.walk ⟨[[0]], 2, 1, (0, 0), (1, 0), 2, 6 / 10, [(9, 9)]⟩
        ⟨fun _ => 0, fun _ => 0⟩ 4 =
      PathWalker.walk ⟨[], 2, 1, (0, 0), (1, 0), 2, 6 / 10, []⟩
        ⟨fun _ => 0, fun _ => 0⟩ 4) ∧
    (runWalk (runWalk ⟨[[0]], 2, 1, (0, 0), (1, 0), 2, 6 / 10, [(9, 9)]⟩
          ⟨fun _ => 0, fun _ => 0⟩ 4).1 ⟨fun _ => 0, fun _ => 0⟩ 4).2 =
      (runWalk ⟨[[0]], 2, 1, (0, 0), (1, 0), 2, 6 / 10, [(9, 9)]⟩
          ⟨fun _ => 0, fun _ => 0⟩ 4).2 :=
  C8_deterministic_replay ⟨[[0]], 2, 1, (0, 0), (1, 0), 2, 6 / 10, [(9, 9)]⟩
    ⟨[], 2, 1, (0, 0), (1, 0), 2, 6 / 10, []⟩ ⟨fun _ => 0, fun _ => 0⟩ 4
    rfl rfl rfl rfl rfl rfl

/- ------------------------------------------------------------------ -/
/- C9: edge-point sampling.                                            -/
/- ------------------------------------------------------------------ -/

/-- Membership of the `i`-th edge of the grid (left, bottom, right, top),
restricted to the sub-range the code actually samples: `randint(0, n-1)`
excludes `n-1`, so the varying coordinate stops at `edge_length - 2` and
the far corner of each edge is never produced. -/
def onEdge (width height : ℕ) : Fin 4 → Point → Prop
  | 0, pt => pt.1 = 0 ∧ 0 ≤ pt.2 ∧ pt.2 ≤ (height : ℤ) - 2
  | 1, pt => pt.2 = 0 ∧ 0 ≤ pt.1 ∧ pt.1 ≤ (width : ℤ) - 2
  | 2, pt => pt.1 = (width : ℤ) - 1 ∧ 0 ≤ pt.2 ∧ pt.2 ≤ (height : ℤ) - 2
  | 3, pt => pt.2 = (height : ℤ) - 1 ∧ 0 ≤ pt.1 ∧ pt.1 ≤ (width : ℤ) - 2

theorem onEdge_edgeCandidates {width height : ℕ} (hw : 2 ≤ width) (hh : 2 ≤ height)
    (r : Fin 4 → ℕ) (i : Fin 4) :
    onEdge width height i (edgeCandidates width height r i) := by
  have h0 : r 0 % (height - 1) < height - 1 := Nat.mod_lt _ (by omega)
  have h1 : r 1 % (width - 1) < width - 1 := Nat.mod_lt _ (by omega)
  have h2 : r 2 % (height - 1) < height - 1 := Nat.mod_lt _ (by omega)
  have h3 : r 3 % (width - 1) < width - 1 := Nat.mod_lt _ (by omega)
  fin_cases i <;> simp only [edgeCandidates, onEdge] <;>
    refine ⟨by simp, by positivity, ?_⟩ <;> omega

/-- On a 4x4 grid the corner `(3, 3)` lies on both the right and the top
edge, yet no random draw can ever produce it. -/
def cornerNeverSampled : Prop :=
  ∀ (r : Fin 4 → ℕ) (σ : Equiv.Perm (Fin 4)),
    ((3 : ℤ), (3 : ℤ)) ∉ random_edge_points 4 4 r σ

/-- C9 counterexample: the sampling is not uniform over each full edge —
the far corner of every edge (here `(3,3)` on a 4x4 grid, a point of the
right and top edges) is outside the support of `random_edge_points`,
because `np.random.randint(0, n-1)` excludes `n-1`. -/
theorem C9_counterexample : cornerNeverSampled := by
  intro r σ hmem
  have hc : ∀ i : Fin 4, edgeCandidates 4 4 r i ≠ ((3 : ℤ), (3 : ℤ)) := by
    intro i
    fin_cases i <;> simp [edgeCandidates] <;> omega
  have heq : random_edge_points 4 4 r σ =
      [edgeCandidates 4 4 r (σ 0), edgeCandidates 4 4 r (σ 1)] := rfl
  rw [heq] at hmem
  rcases List.mem_cons.mp hmem with h | h
  · exact hc (σ 0) h.symm
  · rcases List.mem_cons.mp h with h' | h'
    · exact hc (σ 1) h'.symm
    · simp at h'

/-- C9 (amended): `random_edge_points` returns the first two entries of a
permutation of one candidate per edge, so the two returned points always
come from two distinct edges (left/bottom/right/top), each lying on its
edge with the varying coordinate drawn from `[0, edge_length - 2]` — the
far corner of each edge excluded (and the two points may coincide at a
shared near corner). -/
theorem C9_two_points_on_distinct_edges (width height : ℕ) (r : Fin 4 → ℕ)
    (σ : Equiv.Perm (Fin 4)) (hw : 2 ≤ width) (hh : 2 ≤ height) :
    ∃ i j : Fin 4, i ≠ j ∧
      random_edge_points width height r σ =
        [edgeCandidates width height r i, edgeCandidates width height r j] ∧
      onEdge width height i (edgeCandidates width height r i) ∧
      onEdge width height j (edgeCandidates width height r j) :=
  ⟨σ 0, σ 1, fun h => by simpa using σ.injective h, rfl,
    onEdge_edgeCandidates hw hh r (σ 0), onEdge_edgeCandidates hw hh r (σ 1)⟩

/-- C9 witness: the identity shuffle on a 4x4 grid. -/
theorem C9_witness :
    ∃ i j : Fin 4, i ≠ j ∧
      random_edge_points 4 4 (fun _ => 0) (Equiv.refl (Fin 4)) =
        [edgeCandidates 4 4 (fun _ => 0) i, edgeCandidates 4 4 (fun _ => 0) j] ∧
      onEdge 4 4 i (edgeCandidates 4 4 (fun _ => 0) i) ∧
      onEdge 4 4 j (edgeCandidates 4 4 (fun _ => 0) j) :=
  C9_two_points_on_distinct_edges 4 4 (fun _ => 0) (Equiv.refl (Fin 4))
    (by norm_num) (by norm_num)

/- ------------------------------------------------------------------ -/
/- C6: absence of a step ceiling — a diverging run.                    -/
/- ------------------------------------------------------------------ -/

/-- A 4x1 grid walker from `(0,0)` to `(3,0)` with the default exponent
and pace. -/
def badWalker : PathWalker := ⟨[], 4, 1, (0, 0), (3, 0), 2, 6 / 10, []⟩

/-- An adversarial but perfectly possible random source: every Bernoulli
draw is 0.9 (so the trial yields "decrease" only when the bias
probability exceeds 0.9) and every choice draw is 0. -/
def advRS : RandomSource := ⟨fun _ => 9 / 10, fun _ => 0⟩

theorem badWalker_targetSteps : badWalker.targetSteps = 5 := by
  show targetStepsC 9 2 (6 / 10) = 5
  unfold targetStepsC
  rw [dif_pos (by norm_num)]
  rw [Nat.find_eq_iff]
  refine ⟨by norm_num [budgetReached], ?_⟩
  intro m hm
  interval_cases m <;> norm_num [budgetReached]

theorem prob_should_decrease_five_le {c : ℕ} (hc : 1 ≤ c) :
    prob_should_decrease 5 c ≤ 4 / 5 := by
  unfold prob_should_decrease
  apply max_le
  · norm_num
  · refine le_trans (min_le_right _ _) ?_
    have hcQ : (1 : ℚ) ≤ (c : ℚ) := by exact_mod_cast hc
    push_cast
    rw [div_le_div_iff₀ (by norm_num) (by norm_num)]
    linarith

/-- After the forced first step, the walk on `badWalker` with `advRS`
oscillates between `(1,0)` and `(0,0)` forever: every later Bernoulli
trial (probability at most 4/5 < 9/10) selects "increase distance", which
moves `(1,0) → (0,0)` (the only strictly farther neighbour) and
`(0,0) → (1,0)` (fallback: the only neighbour at all). -/
theorem badWalker_loop : ∀ (fuel c : ℕ), 1 ≤ c → ∀ acc : List Point,
    walkLoopC 4 1 (3, 0) 2 5 advRS fuel
      (if c % 2 = 1 then ((1 : ℤ), (0 : ℤ)) else ((0 : ℤ), (0 : ℤ))) c acc =
    .error .noFuel := by
  intro fuel
  induction fuel with
  | zero =>
    intro c hc acc
    rcases Nat.mod_two_eq_zero_or_one c with h | h <;>
      simp only [h] <;> norm_num [walkLoopC, distPow]
  | succ f ih =>
    intro c hc acc
    have hprob : ¬(advRS.bern c < prob_should_decrease 5 c) := by
      apply not_lt.mpr
      refine le_trans (prob_should_decrease_five_le hc) ?_
      show (4 : ℚ) / 5 ≤ 9 / 10
      norm_num
    rcases Nat.mod_two_eq_zero_or_one c with h | h
    · simp only [h, Nat.zero_ne_one, if_false]
      rw [walkLoopC, if_pos (by decide)]
      have hstep : stepChoice 4 1 (3, 0) 2 5 advRS c ((0 : ℤ), (0 : ℤ)) =
          some ((1 : ℤ), (0 : ℤ)) := by
        unfold stepChoice
        rw [if_neg hprob]
        rfl
      rw [hstep]
      have hnext := ih (c + 1) (by omega) (acc ++ [((1 : ℤ), (0 : ℤ))])
      rw [show (c + 1) % 2 = 1 from by omega] at hnext
      exact hnext
    · simp only [h, if_true]
      rw [walkLoopC, if_pos (by decide)]
      have hstep : stepChoice 4 1 (3, 0) 2 5 advRS c ((1 : ℤ), (0 : ℤ)) =
          some ((0 : ℤ), (0 : ℤ)) := by
        unfold stepChoice
        rw [if_neg hprob]
        rfl
      rw [hstep]
      have hnext := ih (c + 1) (by omega) (acc ++ [((0 : ℤ), (0 : ℤ))])
      rw [show (c + 1) % 2 = 0 from by omega] at hnext
      exact hnext

/-- `walkNeverReturns w rs` says the walk loop is still running after any
number of iterations: the fueled model reports fuel exhaustion for every
fuel bound. -/
def walkNeverReturns (w : PathWalker) (rs : RandomSource) : Prop :=
  ∀ fuel : ℕ, w.walk rs fuel = .error .noFuel

theorem badWalker_never : walkNeverReturns badWalker advRS := by
  intro fuel
  rw [PathWalker.walk, badWalker_targetSteps]
  show walkLoopC 4 1 (3, 0) 2 5 advRS fuel ((0 : ℤ), (0 : ℤ)) 0
    [((0 : ℤ), (0 : ℤ))] = .error .noFuel
  cases fuel with
  | zero => norm_num [walkLoopC, distPow]
  | succ f =>
    rw [walkLoopC, if_pos (by decide)]
    have hstep : stepChoice 4 1 (3, 0) 2 5 advRS 0 ((0 : ℤ), (0 : ℤ)) =
        some ((1 : ℤ), (0 : ℤ)) := by
      unfold stepChoice
      rw [if_pos (by norm_num [advRS, prob_should_decrease])]
      rfl
    rw [hstep]
    have hnext := badWalker_loop f 1 (by norm_num)
      ([((0 : ℤ), (0 : ℤ))] ++ [((1 : ℤ), (0 : ℤ))])
    exact hnext

/-- C6 counterexample: `walk` has no maximum step ceiling — on the 4x1
grid from `(0,0)` to `(3,0)` with the adversarial (but possible) random
draws of `advRS`, the loop never reaches the stopping distance and is
still running after any number of iterations; no "did not converge"
condition exists anywhere in the code. -/
theorem C6_counterexample : walkNeverReturns badWalker advRS :=
  badWalker_never

/-- C6 (amended): the walk loop of `walk` is unbounded: there are a
walker configuration and a random source on which the walk never returns,
for every fuel bound; the code raises no "did not converge" condition. -/
theorem C6_walk_can_run_forever :
    ∃ (w : PathWalker) (rs : RandomSource), walkNeverReturns w rs :=
  ⟨badWalker, advRS, badWalker_never⟩
